import Mathlib

/-!
Verification of the opencode-tdd plugin (a TDD policy gate for an agent
runtime) against its natural-language specification.

The development shallowly embeds the TypeScript source:

* `src/verifier.ts` — fenced-code-block extraction (`extractJson`),
  response parsing (`parseResponse`) and the verdict logic (`verifyEdit`).
  The JavaScript builtin `JSON.parse` is modelled by an executable JSON
  parser (`jsonParse`); the regex used by `extractJson` is modelled by
  `fenceInner` (see the comment there for the equivalence argument).
* `src/config.ts` — `loadConfig` with its required-field validation.
* `src/index.ts` — freshness checking (`getTestOutput`), failing-marker
  counting (`countFailingTests`), enforcement-scope test (`isEnforced`),
  the decision engine (`enforceOneFailingTestRule`, `verifyWithLlm`) and
  the hook body (`toolExecuteBefore`).

Filesystem reads, the wall clock, the host client and the language-model
backend are abstracted as explicit inputs; the audit log is the list of
entries the decision produces.
-/

/-! ### Character classes (JavaScript semantics)

`isJsWs` is the character set matched by the JavaScript regex class `\s`
and stripped by `String.prototype.trim` (WhiteSpace plus LineTerminator).
`isJsonWs` is the much smaller whitespace set of `JSON.parse`.
-/

def isJsWs (c : Char) : Bool :=
  let n := c.toNat
  n = 0x20 || n = 0x9 || n = 0xA || n = 0xB || n = 0xC || n = 0xD ||
  n = 0xA0 || n = 0x1680 || (0x2000 ≤ n && n ≤ 0x200A) ||
  n = 0x2028 || n = 0x2029 || n = 0x202F || n = 0x205F || n = 0x3000 || n = 0xFEFF

def isJsonWs (c : Char) : Bool :=
  let n := c.toNat
  n = 0x20 || n = 0x9 || n = 0xA || n = 0xD

/-- Digits `0`-`9`. -/
def isDig (c : Char) : Bool :=
  48 ≤ c.toNat && c.toNat ≤ 57

/-- Characters that can occur in a JSON number token:
digits, `-`, `+`, `.`, `e`, `E`. -/
def isNumChar (c : Char) : Bool :=
  isDig c || c.toNat = 45 || c.toNat = 43 || c.toNat = 46 || c.toNat = 101 || c.toNat = 69

/-- Strip a run of `p`-characters from the front of a list. -/
def trimL (p : Char → Bool) (cs : List Char) : List Char := cs.dropWhile p

/-- Strip a run of `p`-characters from the back of a list. -/
def trimR (p : Char → Bool) (cs : List Char) : List Char :=
  (cs.reverse.dropWhile p).reverse

/-- Strip `p`-characters from both ends (the shape of JavaScript `trim`). -/
def trimBy (p : Char → Bool) (cs : List Char) : List Char := trimR p (trimL p cs)

/-! ### JSON values and `JSON.parse`

`Json` is the value shape produced by `JSON.parse`.  Numbers are kept as
exact rationals (JavaScript rounds them to binary floating point; no
decision in this program depends on a parsed numeric value beyond the
`typeof`-style case split, so the exact representation is adequate).
-/

inductive Json where
  | null
  | bool (b : Bool)
  | num (q : ℚ)
  | str (s : String)
  | arr (elems : List Json)
  | obj (fields : List (String × Json))

/-- Scan a JSON string body up to the first unescaped double quote,
returning the raw body and the remainder after the closing quote. -/
def takeStringBody : List Char → Option (List Char × List Char)
  | [] => none
  | c :: rest =>
    if c = '"' then some ([], rest)
    else if c = '\\' then
      match rest with
      | [] => none
      | c2 :: rest2 =>
        match takeStringBody rest2 with
        | some (body, r) => some ('\\' :: c2 :: body, r)
        | none => none
    else
      match takeStringBody rest with
      | some (body, r) => some (c :: body, r)
      | none => none

/-- Hex digit value. -/
def hexVal (c : Char) : Option Nat :=
  let n := c.toNat
  if 48 ≤ n ∧ n ≤ 57 then some (n - 48)
  else if 65 ≤ n ∧ n ≤ 70 then some (n - 55)
  else if 97 ≤ n ∧ n ≤ 102 then some (n - 87)
  else none

/-- Value of a four-hex-digit escape. -/
def hex4 (a b c d : Char) : Option Nat :=
  match hexVal a, hexVal b, hexVal c, hexVal d with
  | some x, some y, some z, some w => some (((x * 16 + y) * 16 + z) * 16 + w)
  | _, _, _, _ => none

/-- Decode the escapes of a JSON string body (fuelled; the fuel is the
length of the body).  Control characters below `0x20` are rejected, as
`JSON.parse` rejects them.  Surrogate pairs in `\u` escapes are combined;
a lone surrogate is rejected (approximation: JavaScript would produce an
ill-formed UTF-16 string, which no decision in this program inspects). -/
def decodeString : Nat → List Char → Option (List Char)
  | _, [] => some []
  | 0, _ :: _ => none
  | fuel + 1, '\\' :: rest =>
    match rest with
    | '"' :: r => (decodeString fuel r).map (fun t => '"' :: t)
    | '\\' :: r => (decodeString fuel r).map (fun t => '\\' :: t)
    | '/' :: r => (decodeString fuel r).map (fun t => '/' :: t)
    | 'b' :: r => (decodeString fuel r).map (fun t => '\x08' :: t)
    | 'f' :: r => (decodeString fuel r).map (fun t => '\x0c' :: t)
    | 'n' :: r => (decodeString fuel r).map (fun t => '\n' :: t)
    | 'r' :: r => (decodeString fuel r).map (fun t => '\r' :: t)
    | 't' :: r => (decodeString fuel r).map (fun t => '\t' :: t)
    | 'u' :: a :: b :: c :: d :: r =>
      match hex4 a b c d with
      | none => none
      | some n =>
        if n < 0xD800 ∨ 0xDFFF < n then
          (decodeString fuel r).map (fun t => Char.ofNat n :: t)
        else if 0xD800 ≤ n ∧ n ≤ 0xDBFF then
          match r with
          | '\\' :: 'u' :: a2 :: b2 :: c2 :: d2 :: r2 =>
            match hex4 a2 b2 c2 d2 with
            | some m =>
              if 0xDC00 ≤ m ∧ m ≤ 0xDFFF then
                (decodeString fuel r2).map
                  (fun t => Char.ofNat (0x10000 + (n - 0xD800) * 0x400 + (m - 0xDC00)) :: t)
              else none
            | none => none
          | _ => none
        else none
    | _ => none
  | fuel + 1, c :: rest =>
    if c.toNat < 0x20 then none
    else (decodeString fuel rest).map (fun t => c :: t)

/-- Nat value of a digit run. -/
def digitsToNat (cs : List Char) : Nat :=
  cs.foldl (fun acc c => acc * 10 + (c.toNat - 48)) 0

/-- Parse (and validate) a complete JSON number token into an exact
rational: `-? (0 | [1-9][0-9]*) (. [0-9]+)? ([eE][+-]?[0-9]+)?`. -/
def parseNumberToken (tok : List Char) : Option ℚ :=
  let signSplit : Bool × List Char :=
    match tok with
    | '-' :: r => (true, r)
    | _ => (false, tok)
  let neg := signSplit.1
  let t1 := signSplit.2
  let intPart := t1.takeWhile isDig
  let t2 := t1.dropWhile isDig
  if intPart = [] then none
  else if 2 ≤ intPart.length ∧ intPart.head? = some '0' then none
  else
    let fracSplit : Option (List Char × List Char) :=
      match t2 with
      | '.' :: t3 =>
        let fr := t3.takeWhile isDig
        if fr = [] then none else some (fr, t3.dropWhile isDig)
      | _ => some ([], t2)
    match fracSplit with
    | none => none
    | some (frac, t4) =>
      let expSplit : Option (Bool × List Char) :=
        match t4 with
        | [] => some (false, [])
        | 'e' :: t5 =>
          match t5 with
          | '-' :: t6 => if t6.all isDig ∧ t6 ≠ [] then some (true, t6) else none
          | '+' :: t6 => if t6.all isDig ∧ t6 ≠ [] then some (false, t6) else none
          | _ => if t5.all isDig ∧ t5 ≠ [] then some (false, t5) else none
        | 'E' :: t5 =>
          match t5 with
          | '-' :: t6 => if t6.all isDig ∧ t6 ≠ [] then some (true, t6) else none
          | '+' :: t6 => if t6.all isDig ∧ t6 ≠ [] then some (false, t6) else none
          | _ => if t5.all isDig ∧ t5 ≠ [] then some (false, t5) else none
        | _ => none
      match expSplit with
      | none => none
      | some (eneg, edigits) =>
        let mantissa : ℚ :=
          (digitsToNat intPart : ℚ) + (digitsToNat frac : ℚ) / ((10 : ℚ) ^ frac.length)
        let expo : ℤ :=
          if eneg then -(digitsToNat edigits : ℤ) else (digitsToNat edigits : ℤ)
        let value : ℚ := mantissa * (10 : ℚ) ^ expo
        some (if neg then -value else value)

/-- One step of the JSON value parser, with the (one-less-fuel) member
and element parsers passed in.  The branches follow the JSON grammar;
the trailing branch handles number tokens (taking the maximal run of
number characters and validating it, which agrees with `JSON.parse`
acceptance). -/
def parseValueA (pm : List Char → Option (List (String × Json) × List Char))
    (pe : List Char → Option (List Json × List Char)) (cs : List Char) :
    Option (Json × List Char) :=
  match cs with
  | '"' :: rest =>
    match takeStringBody rest with
    | some (body, rest1) =>
      match decodeString body.length body with
      | some s => some (.str (String.mk s), rest1)
      | none => none
    | none => none
  | 't' :: 'r' :: 'u' :: 'e' :: rest => some (.bool true, rest)
  | 'f' :: 'a' :: 'l' :: 's' :: 'e' :: rest => some (.bool false, rest)
  | 'n' :: 'u' :: 'l' :: 'l' :: rest => some (.null, rest)
  | '{' :: rest =>
    match trimL isJsonWs rest with
    | '}' :: rest1 => some (.obj [], rest1)
    | r =>
      match pm r with
      | some (fields, rest1) =>
        match trimL isJsonWs rest1 with
        | '}' :: rest2 => some (.obj fields, rest2)
        | _ => none
      | none => none
  | '[' :: rest =>
    match trimL isJsonWs rest with
    | ']' :: rest1 => some (.arr [], rest1)
    | r =>
      match pe r with
      | some (elems, rest1) =>
        match trimL isJsonWs rest1 with
        | ']' :: rest2 => some (.arr elems, rest2)
        | _ => none
      | none => none
  | _ =>
    match parseNumberToken (cs.takeWhile isNumChar) with
    | some q => some (.num q, cs.dropWhile isNumChar)
    | none => none

/-- One step of the object-member parser:
`string : value (, string : value)*`. -/
def parseMembersA (pv : List Char → Option (Json × List Char))
    (pm : List Char → Option (List (String × Json) × List Char)) (cs : List Char) :
    Option (List (String × Json) × List Char) :=
  match cs with
  | '"' :: rest =>
    match takeStringBody rest with
    | some (body, rest1) =>
      match decodeString body.length body with
      | some key =>
        match trimL isJsonWs rest1 with
        | ':' :: rest2 =>
          match pv (trimL isJsonWs rest2) with
          | some (v, rest3) =>
            match trimL isJsonWs rest3 with
            | ',' :: rest4 =>
              match pm (trimL isJsonWs rest4) with
              | some (fields, rest5) => some ((String.mk key, v) :: fields, rest5)
              | none => none
            | r => some ([(String.mk key, v)], r)
          | none => none
        | _ => none
      | none => none
    | none => none
  | _ => none

/-- One step of the array-element parser: `value (, value)*`. -/
def parseElementsA (pv : List Char → Option (Json × List Char))
    (pe : List Char → Option (List Json × List Char)) (cs : List Char) :
    Option (List Json × List Char) :=
  match pv cs with
  | some (v, rest) =>
    match trimL isJsonWs rest with
    | ',' :: rest1 =>
      match pe (trimL isJsonWs rest1) with
      | some (elems, rest2) => some (v :: elems, rest2)
      | none => none
    | r => some ([v], r)
  | none => none

mutual

/-- Fuelled JSON value parser: returns the value and the unconsumed
remainder. -/
def parseValue : Nat → List Char → Option (Json × List Char)
  | 0, _ => none
  | n + 1, cs => parseValueA (parseMembers n) (parseElements n) cs

/-- Fuelled object-member parser. -/
def parseMembers : Nat → List Char → Option (List (String × Json) × List Char)
  | 0, _ => none
  | n + 1, cs => parseMembersA (parseValue n) (parseMembers n) cs

/-- Fuelled array-element parser. -/
def parseElements : Nat → List Char → Option (List Json × List Char)
  | 0, _ => none
  | n + 1, cs => parseElementsA (parseValue n) (parseElements n) cs

end

/-- `JSON.parse` on a character list: a JSON text is whitespace, a value,
whitespace.  The fuel `t.length + 1` dominates the recursion depth, which
is bounded by the number of characters consumed before each nested call. -/
def jsonParseL (cs : List Char) : Option Json :=
  let t := trimBy isJsonWs cs
  match parseValue (t.length + 1) t with
  | some (v, []) => some v
  | _ => none

/-- Model of the JavaScript builtin `JSON.parse` (success and value;
failures are `none`). -/
def jsonParse (s : String) : Option Json := jsonParseL s.data

/-! ### Fenced-code-block extraction (`extractJson` in `src/verifier.ts`)

The source applies the regex ` ```(?:json)?\s*([\s\S]*?)``` ` to the raw
response and, when it matches, uses the trimmed first capture group;
otherwise the whole response.  Because `(?:json)?\s*` matches only
non-backtick characters and `([\s\S]*?)` is lazy, the regex has a match
exactly when a second backtick fence occurs after the first one plus its
tag and whitespace; the capture then runs from the end of the whitespace
run to the next fence.  `splitAtFence` locates the leftmost triple
backtick; `fenceInner` reproduces the capture.
-/

/-- Split a character list at the leftmost occurrence of three
consecutive backticks, returning the part before the fence and the part
after it. -/
def splitAtFence : List Char → Option (List Char × List Char)
  | [] => none
  | c :: rest =>
    if c = '`' ∧ rest.take 2 = ['`', '`'] then some ([], rest.drop 2)
    else
      match splitAtFence rest with
      | some (pre, post) => some (c :: pre, post)
      | none => none

/-- Whether a character list contains a triple-backtick fence. -/
def containsFence (cs : List Char) : Bool := (splitAtFence cs).isSome

/-- Consume the optional `json` language tag (`(?:json)?` in the
regex). -/
def stripJsonTag : List Char → List Char
  | 'j' :: 's' :: 'o' :: 'n' :: r => r
  | r => r

/-- The (untrimmed) capture group of the fenced-block regex, when it
matches. -/
def fenceInner (cs : List Char) : Option (List Char) :=
  match splitAtFence cs with
  | none => none
  | some (_, afterOpen) =>
    match splitAtFence (trimL isJsWs (stripJsonTag afterOpen)) with
    | some (inner, _) => some inner
    | none => none

/-- `extractJson` from `src/verifier.ts`: the trimmed inner content of
the first fenced code block, or the whole response when the regex does
not match. -/
def extractJson (response : String) : String :=
  match fenceInner response.data with
  | some inner => String.mk (trimBy isJsWs inner)
  | none => response

/-! ### The Policy Verifier (`verifyEdit` in `src/verifier.ts`)

The language-model backend is abstracted by the outcome of the single
`client.chat` call `verifyEdit` performs: either a response text or a
thrown error (`failure (some message)` for an `Error` instance,
`failure none` for any other thrown value, which the source maps to
"Unknown error").  The prompt that is sent does not influence the
verdict logic and is not modelled.
-/

inductive ChatOutcome where
  | success (response : String)
  | failure (message : Option String)

inductive VerifyResult where
  | allowed
  | blocked (reason : String)
deriving DecidableEq

/-- JavaScript property access on a parsed JSON value: an object yields
its last binding for the key (later duplicate keys win in `JSON.parse`),
anything else yields `undefined` (`none`).  Access on `null` throws; the
caller handles that case separately. -/
def getField (j : Json) (key : String) : Option Json :=
  match j with
  | .obj fields => (fields.reverse.find? (fun p => p.1 = key)).map (fun p => p.2)
  | _ => none

/-- Strict equality of a JSON value with a string literal
(`parsed.editType === "test"` and the like). -/
def isStr (j : Json) (s : String) : Bool :=
  match j with
  | .str t => t = s
  | _ => false

/-- Template-literal display of a JSON value, used when a non-string
`reason` reaches `TDD: ${reason}`.  Number display is approximated by
exact-rational rendering (floating-point formatting is out of scope; no
claim exercises a non-string reason). -/
def jsDisplay : Json → String
  | .null => "null"
  | .bool b => if b then "true" else "false"
  | .num q => toString q
  | .str s => s
  | .arr _ => ""
  | .obj _ => "[object Object]"

/-- The `reason` sent on a block verdict: `parsed.reason ?? "Verification
blocked"` — the default applies when the field is `undefined` or `null`. -/
def reasonOf (v : Json) : String :=
  match getField v "reason" with
  | none => "Verification blocked"
  | some .null => "Verification blocked"
  | some j => jsDisplay j

/-- `parseResponse` from `src/verifier.ts`: extraction followed by
`JSON.parse`; `none` models the thrown "Invalid verifier response". -/
def parseResponse (response : String) : Option Json :=
  jsonParse (extractJson response)

/-- The decision part of `verifyEdit` once `editType === "test"` has been
ruled out: `decision !== "allow"` blocks with the reason (or default),
otherwise allow. -/
def decisionBranch (v : Json) : VerifyResult :=
  let dec := getField v "decision"
  if (match dec with | some j => isStr j "allow" | none => false) then .allowed
  else .blocked (reasonOf v)

/-- `verifyEdit` from `src/verifier.ts`.  A failed backend call returns a
block verdict with the error message; a response is extracted and parsed
(`parseResponse`), parse failure — and the `TypeError` thrown by property
access when the parsed value is `null` — is caught and mapped to
"Invalid verifier response"; `editType === "test"` short-circuits to
allow; otherwise the decision field rules.  The function is total: no
exception escapes. -/
def verifyEdit (outcome : ChatOutcome) : VerifyResult :=
  match outcome with
  | .failure m => .blocked ("Verification failed: " ++ m.getD "Unknown error")
  | .success response =>
    match parseResponse response with
    | none => .blocked "Invalid verifier response"
    | some .null => .blocked "Invalid verifier response"
    | some v =>
      match getField v "editType" with
      | some j => if isStr j "test" then .allowed else decisionBranch v
      | none => decisionBranch v

/-! ### The Pattern Matcher (`isEnforced`; the `picomatch` dependency)

`picomatch` is an external library; it is modelled by the glob core the
specification describes (section 4.1): `*` matches any run of characters
within a path segment, `**` as a whole segment matches any run of
segments, `?` matches one character, everything else is literal;
matching a pattern list succeeds when any pattern matches.
-/

/-- One pattern segment against one path segment (fuelled; every
recursive call shrinks the combined length, so fuel one more than the
combined length never runs out). -/
def matchSegF : Nat → List Char → List Char → Bool
  | 0, _, _ => false
  | _ + 1, [], [] => true
  | _ + 1, [], _ :: _ => false
  | n + 1, '*' :: ps, cs =>
    matchSegF n ps cs ||
      (match cs with
       | [] => false
       | _ :: cs2 => matchSegF n ('*' :: ps) cs2)
  | _ + 1, _ :: _, [] => false
  | n + 1, p :: ps, c :: cs => (p = '?' || p = c) && matchSegF n ps cs

def matchSeg (ps cs : List Char) : Bool :=
  matchSegF (ps.length + cs.length + 1) ps cs

/-- Segment lists, with `**` matching any run of segments (fuelled as
above). -/
def matchSegsF : Nat → List (List Char) → List (List Char) → Bool
  | 0, _, _ => false
  | _ + 1, [], [] => true
  | _ + 1, [], _ :: _ => false
  | n + 1, p :: ps, ss =>
    if p = ['*', '*'] then
      matchSegsF n ps ss ||
        (match ss with
         | [] => false
         | _ :: ss2 => matchSegsF n (p :: ps) ss2)
    else
      match ss with
      | [] => false
      | s :: ss2 => matchSeg p s && matchSegsF n ps ss2

def matchSegs (ps ss : List (List Char)) : Bool :=
  matchSegsF (ps.length + ss.length + 1) ps ss

/-- Split a path at `/` separators. -/
def splitSlash : List Char → List (List Char)
  | [] => [[]]
  | '/' :: rest => [] :: splitSlash rest
  | c :: rest =>
    match splitSlash rest with
    | [] => [[c]]
    | seg :: segs => (c :: seg) :: segs

/-- One glob pattern against one path. -/
def globMatch (pattern path : String) : Bool :=
  matchSegs (splitSlash pattern.data) (splitSlash path.data)

/-- `isEnforced` from `src/index.ts`: an absent pattern list enforces
nothing; otherwise the file is in scope when any pattern matches. -/
def isEnforced (filePath : String) (enforcePatterns : Option (List String)) : Bool :=
  match enforcePatterns with
  | none => false
  | some patterns => patterns.any (fun p => globMatch p filePath)

/-! ### The Test-Signal Reader: failing-marker counting

`countFailingTests` sums the match counts of the regexes
`/\bFAIL\b/gi`, `/✗/g`, `/\bfailed\b/gi`, `/\bfailing\b/gi` over the
test output.  For a word of word-characters, the global case-insensitive
count with `\b` on both sides is: scan left to right, count positions
where the word matches case-insensitively with a non-word character (or
an end) on both sides, resuming after each match.
-/

/-- JavaScript `\w`: ASCII letters, digits, underscore. -/
def isWordChar (c : Char) : Bool :=
  let n := c.toNat
  (48 ≤ n && n ≤ 57) || (65 ≤ n && n ≤ 90) || (97 ≤ n && n ≤ 122) || n = 95

/-- ASCII lower-casing, the case folding of the `i` flag for ASCII words. -/
def lowerChar (c : Char) : Char :=
  if 65 ≤ c.toNat ∧ c.toNat ≤ 90 then Char.ofNat (c.toNat + 32) else c

/-- Case-insensitive prefix test. -/
def ciStarts : List Char → List Char → Bool
  | [], _ => true
  | _ :: _, [] => false
  | p :: ps, c :: cs => lowerChar p = lowerChar c && ciStarts ps cs

/-- The word matches at the head of `cs` and is followed by a non-word
character or the end (the leading boundary is checked by the caller). -/
def boundaryOk (w : List Char) (cs : List Char) : Bool :=
  ciStarts w cs &&
    (match cs.drop w.length with
     | [] => true
     | c :: _ => !isWordChar c)

/-- Scanner for the `\b word \b` count: `prevWord` records whether the
previous character was a word character, `skip` the characters still
covered by the match in progress (so matches never overlap). -/
def countWordGo (w : List Char) : List Char → Bool → Nat → Nat
  | [], _, _ => 0
  | c :: rest, _, Nat.succ skip => countWordGo w rest (isWordChar c) skip
  | c :: rest, prevWord, 0 =>
    if !prevWord && boundaryOk w (c :: rest) then
      1 + countWordGo w rest (isWordChar c) (w.length - 1)
    else
      countWordGo w rest (isWordChar c) 0

/-- Number of matches of `/\b<w>\b/gi` in `cs`. -/
def countWordCI (w : String) (cs : List Char) : Nat := countWordGo w.data cs false 0

/-- `countFailingTests` from `src/index.ts`: total count over the four
failure-indicator patterns. -/
def countFailingTests (testOutput : String) : Nat :=
  let cs := testOutput.data
  countWordCI "FAIL" cs + cs.count '✗' + countWordCI "failed" cs + countWordCI "failing" cs

/-! ### Configuration loading (`src/config.ts`)

The filesystem read is abstracted to `Option String` (`none`: the read
failed, i.e. no config file).  `JSON.parse` is `jsonParse` above.  Thrown
values are modelled by `Thrown`: engine errors carry their message, and
`typeError` stands for the `TypeError` raised by property access when the
config parses to JSON `null` (the only uncaught non-`Error` throw in the
embedded paths).
-/

inductive Thrown where
  | err (message : String)
  | typeError
deriving DecidableEq

structure TDDConfig where
  testOutputFile : String
  enforcePatterns : Option (List String)
  verifierModel : String
  maxTestOutputAge : ℚ
deriving DecidableEq

inductive ConfigLoadResult where
  | missing
  | loaded (config : TDDConfig)
deriving DecidableEq

/-- `requireString`: the field must be a non-empty string. -/
def requireString (value : Option Json) (field : String) : Except Thrown String :=
  match value with
  | some (.str s) =>
    if s = "" then .error (.err ("TDD: Missing config field: " ++ field))
    else .ok s
  | _ => .error (.err ("TDD: Missing config field: " ++ field))

/-- `requireStringArray`: the field must be an array of strings. -/
def requireStringArray (value : Json) (field : String) : Except Thrown (List String) :=
  match value with
  | .arr items =>
    match items.mapM (fun j => match j with | .str s => some s | _ => none) with
    | some strs => .ok strs
    | none => .error (.err ("TDD: " ++ field ++ " must be an array of strings"))
  | _ => .error (.err ("TDD: " ++ field ++ " must be an array of strings"))

/-- `loadConfig` from `src/config.ts`.  `configRaw = none` models a failed
read; note that the emptiness test `!configRaw` in the source is
JavaScript falsiness, so an empty file content also yields `missing`.
`maxTestOutputAge` defaults to `300` when the field is not a number. -/
def loadConfig (configRaw : Option String) : Except Thrown ConfigLoadResult :=
  match configRaw with
  | none => .ok .missing
  | some raw =>
    if raw = "" then .ok .missing
    else
      match jsonParse raw with
      | none => .error (.err "TDD: Invalid config JSON")
      | some .null => .error .typeError
      | some config => do
        let testOutputFile ← requireString (getField config "testOutputFile") "testOutputFile"
        let enforcePatterns ←
          match getField config "enforcePatterns" with
          | none => pure (none : Option (List String))
          | some v => (requireStringArray v "enforcePatterns").map some
        let verifierModel ← requireString (getField config "verifierModel") "verifierModel"
        let maxTestOutputAge : ℚ :=
          match getField config "maxTestOutputAge" with
          | some (.num q) => q
          | _ => 300
        pure (.loaded ⟨testOutputFile, enforcePatterns, verifierModel, maxTestOutputAge⟩)

/-! ### The Audit Logger surface and the Test-Signal Reader (`src/index.ts`)

The logger appends lines elsewhere; for the decision semantics only the
sequence of (level, message) entries matters, so every engine function
returns the entries it writes alongside its outcome.
-/

inductive LogLevel where
  | info
  | warn
  | error
deriving DecidableEq

/-- The test-output artifact as the engine sees it: modification time in
milliseconds and text content. -/
structure Artifact where
  mtimeMs : ℚ
  content : String
deriving DecidableEq

/-- `getTestOutput` from `src/index.ts`: missing artifact fails with
"Run tests first"; an age (in seconds, `(now - mtime) / 1000`) strictly
greater than `maxTestOutputAge` fails with "Re-run tests"; otherwise the
content is returned. -/
def getTestOutput (nowMs : ℚ) (artifact : Option Artifact) (config : TDDConfig) :
    Except String String :=
  match artifact with
  | none => .error "TDD: Run tests first"
  | some a =>
    let ageSeconds := (nowMs - a.mtimeMs) / 1000
    if ageSeconds > config.maxTestOutputAge then .error "TDD: Re-run tests"
    else .ok a.content

/-- Remove the first occurrence of `pat` from `cs`
(JavaScript `String.prototype.replace` with an empty replacement). -/
def removeFirst (pat : List Char) : List Char → List Char
  | [] => []
  | c :: rest =>
    if pat.isPrefixOf (c :: rest) then (c :: rest).drop pat.length
    else c :: removeFirst pat rest

/-- `message.replace("TDD: ", "")` from `getTestOutputWithLogging`. -/
def stripTag (message : String) : String :=
  String.mk (removeFirst "TDD: ".data message.data)

/-- `getTestOutputWithLogging`: on failure, log the stripped message at
ERROR and re-throw. -/
def getTestOutputWithLogging (nowMs : ℚ) (artifact : Option Artifact) (config : TDDConfig) :
    Except (String × List (LogLevel × String)) String :=
  match getTestOutput nowMs artifact config with
  | .ok content => .ok content
  | .error message => .error (message, [(.error, stripTag message)])

/-! ### The TDD Decision Engine (`src/index.ts`)

`TDDContext` matches the source record; the `llmClient` field abstracts
the resolved client by the outcome its single `chat` call would produce
(`none`: `getLlmClient` found no usable client).  The engine result is
the hook outcome (`ok` = return normally / allow; `error` = the raised
blocking error) together with the audit-log entries written.
-/

structure TDDContext where
  filePath : String
  editContent : String
  config : TDDConfig
  testOutput : String
  llmClient : Option ChatOutcome

structure EngineResult where
  outcome : Except Thrown Unit
  logs : List (LogLevel × String)

/-- `verifyWithLlm` (the `src/unnamed/part_003` variant, whose `null`
branch also models `getLlmClient` returning no client in
`src/src/index.ts`): without a client, allow with an INFO entry;
otherwise consult `verifyEdit` and allow or raise per its verdict. -/
def verifyWithLlm (ctx : TDDContext) : EngineResult :=
  match ctx.llmClient with
  | none => ⟨.ok (), [(.info, "Allowed edit (no LLM): " ++ ctx.filePath)]⟩
  | some chatOutcome =>
    match verifyEdit chatOutcome with
    | .allowed => ⟨.ok (), [(.info, "Allowed edit (verified): " ++ ctx.filePath)]⟩
    | .blocked reason =>
      ⟨.error (.err ("TDD: " ++ reason)),
        [(.warn, "Blocked: " ++ reason ++ " - " ++ ctx.filePath)]⟩

/-- `enforceOneFailingTestRule` from `src/index.ts`: more than one
failing marker blocks; exactly one allows (RED); zero delegates to the
verifier (GREEN). -/
def enforceOneFailingTestRule (ctx : TDDContext) : EngineResult :=
  let failCount := countFailingTests ctx.testOutput
  if failCount > 1 then
    ⟨.error (.err "TDD: Fix existing failing test first"),
      [(.warn, "Blocked: Fix existing failing test first - " ++ ctx.filePath)]⟩
  else if failCount = 1 then
    ⟨.ok (), [(.info, "Allowed edit (RED): " ++ ctx.filePath)]⟩
  else
    verifyWithLlm ctx

/-- `getEditContent` from `src/index.ts`: the `write` tool carries the
new content under `content`, the `edit` tool under `newString`; a missing
field becomes the empty string. -/
def getEditContent (tool : String) (argsContent argsNewString : Option String) : String :=
  if tool = "write" then argsContent.getD ""
  else argsNewString.getD ""

/-- The inputs of one hook invocation, with the world state (config file
content, artifact, clock, resolved client) made explicit. -/
structure HookInput where
  tool : String
  filePath : String
  argsContent : Option String
  argsNewString : Option String
  configRaw : Option String
  nowMs : ℚ
  artifact : Option Artifact
  llmClient : Option ChatOutcome

/-- The `tool.execute.before` handler of `TDDPlugin` (`src/index.ts`):
non-file tools pass through; a missing config passes through; an
out-of-scope file passes through; otherwise the test signal is read
(logging and re-raising on failure) and the decision engine runs. -/
def toolExecuteBefore (inp : HookInput) : EngineResult :=
  if ¬ (inp.tool = "edit" ∨ inp.tool = "write") then ⟨.ok (), []⟩
  else
    match loadConfig inp.configRaw with
    | .error t => ⟨.error t, []⟩
    | .ok .missing => ⟨.ok (), []⟩
    | .ok (.loaded config) =>
      if ¬ isEnforced inp.filePath config.enforcePatterns then ⟨.ok (), []⟩
      else
        match getTestOutputWithLogging inp.nowMs inp.artifact config with
        | .error (message, logs) => ⟨.error (.err message), logs⟩
        | .ok testOutput =>
          enforceOneFailingTestRule
            ⟨inp.filePath, getEditContent inp.tool inp.argsContent inp.argsNewString,
              config, testOutput, inp.llmClient⟩

/-! ### Claims C1, C2, C9: the three-state decision engine -/

/-- Claim C1: whenever the failing-marker count of the test output is
strictly greater than 1, the decision engine raises the blocking error
"TDD: Fix existing failing test first" (logging it at WARN), for every
file path, and the policy verifier is never invoked — the result does not
depend on the client at all. -/
theorem blocked_state_blocks (ctx : TDDContext)
    (h : countFailingTests ctx.testOutput > 1) :
    enforceOneFailingTestRule ctx =
      ⟨.error (.err "TDD: Fix existing failing test first"),
        [(.warn, "Blocked: Fix existing failing test first - " ++ ctx.filePath)]⟩
    ∧ ∀ c : Option ChatOutcome,
        enforceOneFailingTestRule { ctx with llmClient := c } = enforceOneFailingTestRule ctx := by
  constructor
  · simp only [enforceOneFailingTestRule]
    rw [if_pos h]
  · intro c
    simp only [enforceOneFailingTestRule]
    rw [if_pos h, if_pos h]

theorem blocked_state_blocks_witness :
    countFailingTests "FAIL one\nFAIL two" > 1 ∧
    enforceOneFailingTestRule
        ⟨"src/a.ts", "", ⟨"out.txt", some ["src/**"], "m", 300⟩, "FAIL one\nFAIL two", none⟩ =
      ⟨.error (.err "TDD: Fix existing failing test first"),
        [(.warn, "Blocked: Fix existing failing test first - " ++ "src/a.ts")]⟩ :=
  ⟨by decide,
    (blocked_state_blocks
      ⟨"src/a.ts", "", ⟨"out.txt", some ["src/**"], "m", 300⟩, "FAIL one\nFAIL two", none⟩
      (by decide)).1⟩

/-- Claim C2: whenever the failing-marker count is exactly 1 (RED), the
decision engine returns normally (allow) with the INFO entry
"Allowed edit (RED)", for every file path and regardless of the verifier
client, which is never invoked. -/
theorem red_state_allows (ctx : TDDContext)
    (h : countFailingTests ctx.testOutput = 1) :
    enforceOneFailingTestRule ctx =
      ⟨.ok (), [(.info, "Allowed edit (RED): " ++ ctx.filePath)]⟩
    ∧ ∀ c : Option ChatOutcome,
        enforceOneFailingTestRule { ctx with llmClient := c } = enforceOneFailingTestRule ctx := by
  have hnot : ¬ countFailingTests ctx.testOutput > 1 := by omega
  constructor
  · simp only [enforceOneFailingTestRule]
    rw [if_neg hnot, if_pos h]
  · intro c
    simp only [enforceOneFailingTestRule]
    rw [if_neg hnot, if_pos h, if_neg hnot, if_pos h]

theorem red_state_allows_witness :
    countFailingTests "FAIL one" = 1 ∧
    enforceOneFailingTestRule
        ⟨"src/a.ts", "x", ⟨"out.txt", some ["src/**"], "m", 300⟩, "FAIL one",
          some (.failure (some "backend down"))⟩ =
      ⟨.ok (), [(.info, "Allowed edit (RED): " ++ "src/a.ts")]⟩ :=
  ⟨by decide,
    (red_state_allows
      ⟨"src/a.ts", "x", ⟨"out.txt", some ["src/**"], "m", 300⟩, "FAIL one",
        some (.failure (some "backend down"))⟩
      (by decide)).1⟩

/-- Claim C9: in the GREEN state (failing-marker count 0) with no usable
language-model client bound, the decision engine allows and writes the
INFO entry "Allowed edit (no LLM)". -/
theorem green_without_client_allows (ctx : TDDContext)
    (hgreen : countFailingTests ctx.testOutput = 0)
    (hclient : ctx.llmClient = none) :
    enforceOneFailingTestRule ctx =
      ⟨.ok (), [(.info, "Allowed edit (no LLM): " ++ ctx.filePath)]⟩ := by
  have h1 : ¬ countFailingTests ctx.testOutput > 1 := by omega
  have h2 : ¬ countFailingTests ctx.testOutput = 1 := by omega
  simp only [enforceOneFailingTestRule]
  rw [if_neg h1, if_neg h2]
  simp only [verifyWithLlm, hclient]

theorem green_without_client_allows_witness :
    countFailingTests "PASS all" = 0 ∧
    enforceOneFailingTestRule
        ⟨"src/a.ts", "x", ⟨"out.txt", some ["src/**"], "m", 300⟩, "PASS all", none⟩ =
      ⟨.ok (), [(.info, "Allowed edit (no LLM): " ++ "src/a.ts")]⟩ :=
  ⟨by decide,
    green_without_client_allows
      ⟨"src/a.ts", "x", ⟨"out.txt", some ["src/**"], "m", 300⟩, "PASS all", none⟩
      (by decide) rfl⟩

/-! ### Claim C3: freshness boundary of the Test-Signal Reader -/

/-- Claim C3: freshness is a strict-inequality test.  An artifact whose
age equals `maxTestOutputAge` exactly is fresh (the content is returned);
an age strictly greater fails with "TDD: Re-run tests"; a missing
artifact fails with "TDD: Run tests first". -/
theorem freshness_boundary (nowMs mtimeMs : ℚ) (content : String) (config : TDDConfig) :
    ((nowMs - mtimeMs) / 1000 = config.maxTestOutputAge →
      getTestOutput nowMs (some ⟨mtimeMs, content⟩) config = .ok content)
    ∧ ((nowMs - mtimeMs) / 1000 > config.maxTestOutputAge →
      getTestOutput nowMs (some ⟨mtimeMs, content⟩) config = .error "TDD: Re-run tests")
    ∧ getTestOutput nowMs none config = .error "TDD: Run tests first" := by
  refine ⟨fun h => ?_, fun h => ?_, rfl⟩
  · simp only [getTestOutput]
    rw [if_neg (by rw [h]; exact lt_irrefl _)]
  · simp only [getTestOutput]
    rw [if_pos h]

theorem freshness_boundary_witness :
    ((300000 : ℚ) - 0) / 1000 = (⟨"o", none, "m", 300⟩ : TDDConfig).maxTestOutputAge ∧
    getTestOutput 300000 (some ⟨0, "PASS"⟩) ⟨"o", none, "m", 300⟩ = .ok "PASS" ∧
    ((300001000 : ℚ) - 0) / 1000 > (⟨"o", none, "m", 300⟩ : TDDConfig).maxTestOutputAge ∧
    getTestOutput 300001000 (some ⟨0, "PASS"⟩) ⟨"o", none, "m", 300⟩ =
      .error "TDD: Re-run tests" :=
  ⟨by norm_num,
    (freshness_boundary 300000 0 "PASS" ⟨"o", none, "m", 300⟩).1 (by norm_num),
    by norm_num,
    (freshness_boundary 300001000 0 "PASS" ⟨"o", none, "m", 300⟩).2.1 (by norm_num)⟩

/-! ### Claim C4: out-of-scope edits pass through untouched -/

/-- Claim C4: when the configuration loads but the file path is matched
by no `enforcePatterns` glob, the hook allows, reads no test signal (the
result is this constant for every artifact state and clock, including a
missing or stale artifact) and writes no log entry; and an absent
`enforcePatterns` field enforces nothing. -/
theorem out_of_scope_passthrough (inp : HookInput) (config : TDDConfig)
    (hload : loadConfig inp.configRaw = .ok (.loaded config))
    (hscope : isEnforced inp.filePath config.enforcePatterns = false) :
    toolExecuteBefore inp = ⟨.ok (), []⟩
    ∧ ∀ fp : String, isEnforced fp none = false := by
  refine ⟨?_, fun fp => rfl⟩
  simp only [toolExecuteBefore]
  by_cases htool : inp.tool = "edit" ∨ inp.tool = "write"
  · rw [if_neg (not_not_intro htool), hload]
    simp [hscope]
  · rw [if_pos htool]

theorem out_of_scope_passthrough_witness :
    loadConfig
        (some "\x7b\"testOutputFile\":\"o.txt\",\"verifierModel\":\"m\",\"enforcePatterns\":[\"src/**\"]\x7d") =
      .ok (.loaded ⟨"o.txt", some ["src/**"], "m", 300⟩) ∧
    isEnforced "docs/readme.md" (some ["src/**"]) = false ∧
    toolExecuteBefore
        ⟨"edit", "docs/readme.md", none, some "x",
          some "\x7b\"testOutputFile\":\"o.txt\",\"verifierModel\":\"m\",\"enforcePatterns\":[\"src/**\"]\x7d",
          0, none, none⟩ =
      ⟨.ok (), []⟩ :=
  ⟨rfl, rfl,
    (out_of_scope_passthrough
      ⟨"edit", "docs/readme.md", none, some "x",
        some "\x7b\"testOutputFile\":\"o.txt\",\"verifierModel\":\"m\",\"enforcePatterns\":[\"src/**\"]\x7d",
        0, none, none⟩
      ⟨"o.txt", some ["src/**"], "m", 300⟩ rfl rfl).1⟩

/-! ### Claim C10: empty config content behaves as an absent file -/

/-- Claim C10: a config file whose content is the empty string takes the
JavaScript-falsiness branch of `loadConfig` and yields the `missing`
result — indistinguishable from an absent file, and a silent allow at the
hook — whereas any other content that is not parseable JSON raises
"TDD: Invalid config JSON". -/
theorem empty_config_is_missing :
    loadConfig (some "") = .ok .missing
    ∧ loadConfig none = .ok .missing
    ∧ (∀ inp : HookInput, inp.configRaw = some "" → toolExecuteBefore inp = ⟨.ok (), []⟩)
    ∧ (∀ raw : String, raw ≠ "" → jsonParse raw = none →
        loadConfig (some raw) = .error (.err "TDD: Invalid config JSON")) := by
  refine ⟨rfl, rfl, fun inp h => ?_, fun raw hne hparse => ?_⟩
  · simp only [toolExecuteBefore, h]
    by_cases htool : inp.tool = "edit" ∨ inp.tool = "write"
    · rw [if_neg (not_not_intro htool)]
      rfl
    · rw [if_pos htool]
  · simp only [loadConfig]
    rw [if_neg hne, hparse]

theorem empty_config_is_missing_witness :
    toolExecuteBefore ⟨"edit", "src/a.ts", none, some "x", some "", 0, none, none⟩ =
      ⟨.ok (), []⟩
    ∧ "\x7b" ≠ "" ∧ jsonParse "\x7b" = none
    ∧ loadConfig (some "\x7b") = .error (.err "TDD: Invalid config JSON") :=
  ⟨empty_config_is_missing.2.2.1 ⟨"edit", "src/a.ts", none, some "x", some "", 0, none, none⟩ rfl,
    by decide, rfl,
    empty_config_is_missing.2.2.2 "\x7b" (by decide) rfl⟩

/-! ### Claims C5, C7, C8: the Policy Verifier verdict logic -/

/-- Claim C5: whenever the extracted and parsed response is exactly the
verdict object with `editType` (the edit-kind field) `"test"` and
`decision` `"block"`, the verifier returns allow — the edit-kind check
precedes and overrides the decision field. -/
theorem test_kind_overrides_decision (response : String)
    (hparse : parseResponse response =
      some (.obj [("editType", .str "test"), ("decision", .str "block")])) :
    verifyEdit (.success response) = .allowed := by
  simp only [verifyEdit, hparse]
  rfl

theorem test_kind_overrides_decision_witness :
    parseResponse "\x7b\"editType\":\"test\",\"decision\":\"block\"\x7d" =
      some (.obj [("editType", .str "test"), ("decision", .str "block")])
    ∧ verifyEdit (.success "\x7b\"editType\":\"test\",\"decision\":\"block\"\x7d") = .allowed :=
  ⟨rfl, test_kind_overrides_decision "\x7b\"editType\":\"test\",\"decision\":\"block\"\x7d" rfl⟩

/-- Claim C7: a thrown backend error is recovered into the block verdict
"Verification failed: <message>" ("Unknown error" for a non-`Error`
throw) — `verifyEdit` is a total function, so no exception escapes — and
any response whose extracted candidate payload does not parse as JSON,
including the empty and a whitespace-only response, yields the block
verdict "Invalid verifier response". -/
theorem verifier_failures_recovered :
    (∀ message : String,
      verifyEdit (.failure (some message)) =
        .blocked ("Verification failed: " ++ message))
    ∧ verifyEdit (.failure none) = .blocked "Verification failed: Unknown error"
    ∧ (∀ response : String, parseResponse response = none →
        verifyEdit (.success response) = .blocked "Invalid verifier response")
    ∧ verifyEdit (.success "") = .blocked "Invalid verifier response"
    ∧ verifyEdit (.success " \n  ") = .blocked "Invalid verifier response" := by
  refine ⟨fun message => rfl, rfl, fun response h => ?_, rfl, rfl⟩
  simp only [verifyEdit, h]

theorem verifier_failures_recovered_witness :
    verifyEdit (.failure (some "socket hang up")) =
      .blocked ("Verification failed: " ++ "socket hang up")
    ∧ parseResponse "not json at all" = none
    ∧ verifyEdit (.success "not json at all") = .blocked "Invalid verifier response" :=
  ⟨verifier_failures_recovered.1 "socket hang up", rfl,
    verifier_failures_recovered.2.2.1 "not json at all" rfl⟩

/-- Claim C8: a parsed verdict that is not a test edit, whose decision is
not `"allow"`, and which carries no `reason` field, blocks with the fixed
default reason "Verification blocked", which is non-empty. -/
theorem default_reason_on_block (response : String) (v : Json)
    (hparse : parseResponse response = some v)
    (hnotnull : v ≠ .null)
    (hkind : ∀ j, getField v "editType" = some j → isStr j "test" = false)
    (hdec : ∀ j, getField v "decision" = some j → isStr j "allow" = false)
    (hreason : getField v "reason" = none) :
    verifyEdit (.success response) = .blocked "Verification blocked"
    ∧ "Verification blocked" ≠ "" := by
  refine ⟨?_, by decide⟩
  have hdb : decisionBranch v = .blocked "Verification blocked" := by
    cases hd : getField v "decision" with
    | none => simp [decisionBranch, reasonOf, hreason, hd]
    | some j => simp [decisionBranch, reasonOf, hreason, hd, hdec j hd]
  simp only [verifyEdit, hparse]
  cases v with
  | null => exact absurd rfl hnotnull
  | bool b => simpa [getField] using hdb
  | num q => simpa [getField] using hdb
  | str s => simpa [getField] using hdb
  | arr es => simpa [getField] using hdb
  | obj fields =>
    cases hk : getField (.obj fields) "editType" with
    | none => simpa [hk] using hdb
    | some j =>
      have := hkind j hk
      simp only [hk]
      rw [this]
      simpa using hdb

theorem default_reason_on_block_witness :
    parseResponse "\x7b\"decision\":\"block\"\x7d" =
      some (.obj [("decision", .str "block")])
    ∧ verifyEdit (.success "\x7b\"decision\":\"block\"\x7d") =
      .blocked "Verification blocked" :=
  ⟨rfl,
    (default_reason_on_block "\x7b\"decision\":\"block\"\x7d"
      (.obj [("decision", .str "block")]) rfl
      (fun h => Json.noConfusion h)
      (fun j hj => Option.noConfusion hj)
      (fun j hj => by cases Option.some.inj hj; rfl)
      rfl).1⟩

/-! ### Helper lemmas for the fenced-wrap round-trip (claim C6)

The wrap/extract argument needs: (a) every JSON-whitespace character is
JavaScript whitespace and no number character is; (b) a successfully
parsed JSON text starts and ends with a non-whitespace character; (c)
computation rules for `splitAtFence` around a fence-free block.
-/

theorem isJsonWs_isJsWs {c : Char} (h : isJsonWs c = true) : isJsWs c = true := by
  simp only [isJsonWs, isJsWs, Bool.or_eq_true, Bool.and_eq_true, decide_eq_true_eq] at *
  omega

theorem isNumChar_not_jsWs {c : Char} (h : isNumChar c = true) : isJsWs c = false := by
  simp only [isNumChar, isDig, isJsWs, Bool.or_eq_true, Bool.and_eq_true,
    decide_eq_true_eq, Bool.not_eq_true] at *
  rw [Bool.eq_false_iff]
  simp only [ne_eq, Bool.or_eq_true, Bool.and_eq_true, decide_eq_true_eq, not_or]
  omega

theorem dropWhile_cons_of_neg {p : Char → Bool} {c : Char} {cs : List Char}
    (h : p c = false) : (c :: cs).dropWhile p = c :: cs := by
  simp [List.dropWhile_cons, h]

theorem dropWhile_append_of_all {p : Char → Bool} {xs : List Char} (ys : List Char)
    (h : ∀ x ∈ xs, p x = true) : (xs ++ ys).dropWhile p = ys.dropWhile p := by
  induction xs with
  | nil => rfl
  | cons c cs ih =>
    simp only [List.cons_append, List.dropWhile_cons, h c (by simp)]
    exact ih (fun x hx => h x (by simp [hx]))

theorem trimL_eq_of_head {p : Char → Bool} {c : Char} (h : p c = false) (cs : List Char) :
    trimL p (c :: cs) = c :: cs := dropWhile_cons_of_neg h

theorem trimR_eq_of_last {p : Char → Bool} {c : Char} (h : p c = false) (cs : List Char) :
    trimR p (cs ++ [c]) = cs ++ [c] := by
  simp only [trimR, List.reverse_append, List.reverse_cons, List.reverse_nil, List.nil_append,
    List.singleton_append, dropWhile_cons_of_neg h, List.reverse_cons, List.reverse_reverse]

/-- Every list is its `trimBy` core surrounded by `p`-runs. -/
theorem trimBy_decomposition (p : Char → Bool) (cs : List Char) :
    ∃ pre suf, cs = pre ++ trimBy p cs ++ suf
      ∧ (∀ x ∈ pre, p x = true) ∧ (∀ x ∈ suf, p x = true) := by
  refine ⟨cs.takeWhile p, ((trimL p cs).reverse.takeWhile p).reverse, ?_, ?_, ?_⟩
  · have h1 : cs = cs.takeWhile p ++ trimL p cs :=
      (List.takeWhile_append_dropWhile p cs).symm
    have h2 : trimL p cs = trimBy p cs ++ ((trimL p cs).reverse.takeWhile p).reverse := by
      calc trimL p cs = (trimL p cs).reverse.reverse := by simp
        _ = ((trimL p cs).reverse.takeWhile p ++ (trimL p cs).reverse.dropWhile p).reverse := by
            rw [List.takeWhile_append_dropWhile]
        _ = ((trimL p cs).reverse.dropWhile p).reverse ++
              ((trimL p cs).reverse.takeWhile p).reverse := by
            rw [List.reverse_append]
        _ = trimBy p cs ++ ((trimL p cs).reverse.takeWhile p).reverse := rfl
    conv_lhs => rw [h1, h2]
    rw [List.append_assoc]
  · exact fun x hx => List.mem_takeWhile_imp hx
  · intro x hx
    rw [List.mem_reverse] at hx
    exact List.mem_takeWhile_imp hx

/-- A list whose two endpoint characters fail `p` is untouched by
`trimBy p`. -/
theorem trimBy_eq_of_ends {p : Char → Bool} {c d : Char} {mid : List Char}
    (hc : p c = false) (hd : p d = false) :
    trimBy p (c :: (mid ++ [d])) = c :: (mid ++ [d]) := by
  have h1 : trimL p (c :: (mid ++ [d])) = c :: (mid ++ [d]) := trimL_eq_of_head hc _
  have h2 : trimR p ((c :: mid) ++ [d]) = (c :: mid) ++ [d] := trimR_eq_of_last hd _
  simp only [trimBy, h1]
  simpa using h2

/-- The closing quote found by `takeStringBody` splits the input. -/
theorem takeStringBody_eq (cs : List Char) :
    ∀ body rest, takeStringBody cs = some (body, rest) → cs = body ++ '"' :: rest := by
  induction cs using takeStringBody.induct with
  | case1 =>
    intro body rest h
    rw [takeStringBody.eq_def] at h
    simp at h
  | case2 rest2 =>
    intro body rest h
    rw [takeStringBody.eq_def] at h
    simp at h
    rw [h.1, h.2]
    rfl
  | case3 hne =>
    intro body rest h
    rw [takeStringBody.eq_def] at h
    simp at h
  | case4 c2 rest2 body0 r0 htb hne ih =>
    intro body rest h
    rw [takeStringBody.eq_def] at h
    simp [htb] at h
    rw [← h.1, ← h.2, ih body0 r0 htb]
    rfl
  | case5 c2 rest2 htb hne ih =>
    intro body rest h
    rw [takeStringBody.eq_def] at h
    simp [htb] at h
  | case6 c2 rest2 hq hb body0 r0 htb ih =>
    intro body rest h
    rw [takeStringBody.eq_def] at h
    simp [htb, hq, hb] at h
    rw [← h.1, ← h.2, ih body0 r0 htb]
    rfl
  | case7 c2 rest2 hq hb htb ih =>
    intro body rest h
    rw [takeStringBody.eq_def] at h
    simp [htb, hq, hb] at h

/-- The remainder after the closing quote is a suffix of the scanned
input. -/
theorem suffix_of_takeStringBody {cs body rest : List Char}
    (h : takeStringBody cs = some (body, rest)) : rest <:+ cs := by
  rw [takeStringBody_eq cs body rest h]
  exact ⟨body ++ ['"'], by simp⟩

/-- The tail after a character produced by `trimL` is a suffix of the
original list. -/
theorem suffix_of_trimL_eq {p : Char → Bool} {l : List Char} {c : Char} {r : List Char}
    (h : trimL p l = c :: r) : r <:+ l := by
  have h1 : c :: r <:+ l := h ▸ (List.dropWhile_suffix p : trimL p l <:+ l)
  exact (List.suffix_cons c r).trans h1

/-- A suffix of `trimL` is a suffix of the original list. -/
theorem suffix_through_trimL {p : Char → Bool} {l m : List Char} (h : m <:+ trimL p l) :
    m <:+ l :=
  h.trans (List.dropWhile_suffix p : trimL p l <:+ l)


/-- The unconsumed remainder of a value-parser step is a suffix of its
input, given the same for the parsers it delegates to. -/
theorem parseValueA_suffix
    (pm : List Char → Option (List (String × Json) × List Char))
    (pe : List Char → Option (List Json × List Char))
    (hpm : ∀ cs f rest, pm cs = some (f, rest) → rest <:+ cs)
    (hpe : ∀ cs es rest, pe cs = some (es, rest) → rest <:+ cs) :
    ∀ cs v rest, parseValueA pm pe cs = some (v, rest) → rest <:+ cs := by
  intro cs v rest h
  rw [parseValueA.eq_def] at h
  split at h
  · -- string
    rename_i rest0
    split at h
    · rename_i body rest1 heq
      split at h
      · simp only [Option.some.injEq, Prod.mk.injEq] at h
        rw [← h.2]
        exact (suffix_of_takeStringBody heq).trans (List.suffix_cons '"' rest0)
      · exact Option.noConfusion h
    · exact Option.noConfusion h
  · rename_i rest0
    simp only [Option.some.injEq, Prod.mk.injEq] at h
    rw [← h.2]
    exact ⟨['t', 'r', 'u', 'e'], rfl⟩
  · rename_i rest0
    simp only [Option.some.injEq, Prod.mk.injEq] at h
    rw [← h.2]
    exact ⟨['f', 'a', 'l', 's', 'e'], rfl⟩
  · rename_i rest0
    simp only [Option.some.injEq, Prod.mk.injEq] at h
    rw [← h.2]
    exact ⟨['n', 'u', 'l', 'l'], rfl⟩
  · -- object
    rename_i rest0
    split at h
    · rename_i rest1 heq
      simp only [Option.some.injEq, Prod.mk.injEq] at h
      rw [← h.2]
      exact (suffix_of_trimL_eq heq).trans (List.suffix_cons '{' rest0)
    · rename_i r hne
      split at h
      · rename_i fields rest1 hm
        split at h
        · rename_i rest2 heq2
          simp only [Option.some.injEq, Prod.mk.injEq] at h
          rw [← h.2]
          have s1 : rest2 <:+ rest1 := suffix_of_trimL_eq heq2
          have s2 : rest1 <:+ trimL isJsonWs rest0 := hpm _ _ _ hm
          exact (suffix_through_trimL (s1.trans s2)).trans (List.suffix_cons '{' rest0)
        · exact Option.noConfusion h
      · exact Option.noConfusion h
  · -- array
    rename_i rest0
    split at h
    · rename_i rest1 heq
      simp only [Option.some.injEq, Prod.mk.injEq] at h
      rw [← h.2]
      exact (suffix_of_trimL_eq heq).trans (List.suffix_cons '[' rest0)
    · rename_i r hne
      split at h
      · rename_i elems rest1 hm
        split at h
        · rename_i rest2 heq2
          simp only [Option.some.injEq, Prod.mk.injEq] at h
          rw [← h.2]
          have s1 : rest2 <:+ rest1 := suffix_of_trimL_eq heq2
          have s2 : rest1 <:+ trimL isJsonWs rest0 := hpe _ _ _ hm
          exact (suffix_through_trimL (s1.trans s2)).trans (List.suffix_cons '[' rest0)
        · exact Option.noConfusion h
      · exact Option.noConfusion h
  · -- number
    split at h
    · simp only [Option.some.injEq, Prod.mk.injEq] at h
      rw [← h.2]
      exact List.dropWhile_suffix isNumChar
    · exact Option.noConfusion h

/-- The unconsumed remainder of a member-parser step is a suffix of its
input. -/
theorem parseMembersA_suffix
    (pv : List Char → Option (Json × List Char))
    (pm : List Char → Option (List (String × Json) × List Char))
    (hpv : ∀ cs v rest, pv cs = some (v, rest) → rest <:+ cs)
    (hpm : ∀ cs f rest, pm cs = some (f, rest) → rest <:+ cs) :
    ∀ cs f rest, parseMembersA pv pm cs = some (f, rest) → rest <:+ cs := by
  intro cs f rest h
  rw [parseMembersA.eq_def] at h
  split at h
  · rename_i rest0
    split at h
    · rename_i body rest1 heq
      split at h
      · rename_i key hkey
        split at h
        · rename_i rest2 heq1
          split at h
          · rename_i v0 rest3 hv
            split at h
            · rename_i rest4 heq2
              split at h
              · rename_i fields rest5 hm2
                simp only [Option.some.injEq, Prod.mk.injEq] at h
                rw [← h.2]
                have s1 : rest5 <:+ trimL isJsonWs rest4 := hpm _ _ _ hm2
                have s2 : rest4 <:+ rest3 := suffix_of_trimL_eq heq2
                have s3 : rest3 <:+ trimL isJsonWs rest2 := hpv _ _ _ hv
                have s4 : rest2 <:+ rest1 := suffix_of_trimL_eq heq1
                have s5 : rest1 <:+ rest0 := suffix_of_takeStringBody heq
                exact ((((suffix_through_trimL s1).trans s2).trans
                  ((suffix_through_trimL s3).trans s4)).trans s5).trans
                  (List.suffix_cons '"' rest0)
              · exact Option.noConfusion h
            · rename_i hne
              simp only [Option.some.injEq, Prod.mk.injEq] at h
              rw [← h.2]
              have s3 : rest3 <:+ trimL isJsonWs rest2 := hpv _ _ _ hv
              have s4 : rest2 <:+ rest1 := suffix_of_trimL_eq heq1
              have s5 : rest1 <:+ rest0 := suffix_of_takeStringBody heq
              exact (((List.dropWhile_suffix isJsonWs :
                  trimL isJsonWs rest3 <:+ rest3).trans
                ((suffix_through_trimL s3).trans s4)).trans s5).trans
                (List.suffix_cons '"' rest0)
          · exact Option.noConfusion h
        · exact Option.noConfusion h
      · exact Option.noConfusion h
    · exact Option.noConfusion h
  · exact Option.noConfusion h

/-- The unconsumed remainder of an element-parser step is a suffix of its
input. -/
theorem parseElementsA_suffix
    (pv : List Char → Option (Json × List Char))
    (pe : List Char → Option (List Json × List Char))
    (hpv : ∀ cs v rest, pv cs = some (v, rest) → rest <:+ cs)
    (hpe : ∀ cs es rest, pe cs = some (es, rest) → rest <:+ cs) :
    ∀ cs es rest, parseElementsA pv pe cs = some (es, rest) → rest <:+ cs := by
  intro cs es rest h
  rw [parseElementsA.eq_def] at h
  split at h
  · rename_i v0 rest0 hv
    split at h
    · rename_i rest1 heq
      split at h
      · rename_i elems rest2 he2
        simp only [Option.some.injEq, Prod.mk.injEq] at h
        rw [← h.2]
        have s1 : rest2 <:+ trimL isJsonWs rest1 := hpe _ _ _ he2
        have s2 : rest1 <:+ rest0 := suffix_of_trimL_eq heq
        have s3 : rest0 <:+ cs := hpv _ _ _ hv
        exact (((suffix_through_trimL s1).trans s2).trans s3)
      · exact Option.noConfusion h
    · rename_i hne
      simp only [Option.some.injEq, Prod.mk.injEq] at h
      rw [← h.2]
      have s3 : rest0 <:+ cs := hpv _ _ _ hv
      exact ((List.dropWhile_suffix isJsonWs :
        trimL isJsonWs rest0 <:+ rest0).trans s3)
  · exact Option.noConfusion h

/-- The unconsumed remainder of each parser is a suffix of its input. -/
theorem parse_suffix (n : Nat) :
    (∀ cs v rest, parseValue n cs = some (v, rest) → rest <:+ cs)
    ∧ (∀ cs f rest, parseMembers n cs = some (f, rest) → rest <:+ cs)
    ∧ (∀ cs es rest, parseElements n cs = some (es, rest) → rest <:+ cs) := by
  induction n with
  | zero =>
    exact ⟨fun cs v rest h => Option.noConfusion h,
      fun cs f rest h => Option.noConfusion h,
      fun cs es rest h => Option.noConfusion h⟩
  | succ n ih =>
    obtain ⟨ihv, ihm, ihe⟩ := ih
    exact ⟨parseValueA_suffix _ _ ihm ihe, parseMembersA_suffix _ _ ihv ihm,
      parseElementsA_suffix _ _ ihv ihe⟩

theorem parseNumberToken_nil : parseNumberToken [] = none := rfl

/-- A successful value-parser step consumes a first character that is
not JavaScript whitespace. -/
theorem parseValueA_head
    (pm : List Char → Option (List (String × Json) × List Char))
    (pe : List Char → Option (List Json × List Char)) :
    ∀ cs v rest, parseValueA pm pe cs = some (v, rest) →
      ∃ c cs2, cs = c :: cs2 ∧ isJsWs c = false := by
  intro cs v rest h
  rw [parseValueA.eq_def] at h
  split at h
  · rename_i rest0
    exact ⟨'"', rest0, rfl, by decide⟩
  · rename_i rest0
    exact ⟨'t', 'r' :: 'u' :: 'e' :: rest0, rfl, by decide⟩
  · rename_i rest0
    exact ⟨'f', 'a' :: 'l' :: 's' :: 'e' :: rest0, rfl, by decide⟩
  · rename_i rest0
    exact ⟨'n', 'u' :: 'l' :: 'l' :: rest0, rfl, by decide⟩
  · rename_i rest0
    exact ⟨'{', rest0, rfl, by decide⟩
  · rename_i rest0
    exact ⟨'[', rest0, rfl, by decide⟩
  · split at h
    · rename_i q hq
      cases cs with
      | nil => exact absurd hq (by simp [parseNumberToken_nil])
      | cons c cs2 =>
        refine ⟨c, cs2, rfl, ?_⟩
        by_cases hnum : isNumChar c
        · exact isNumChar_not_jsWs hnum
        · rw [List.takeWhile_cons, if_neg hnum] at hq
          exact absurd hq (by simp [parseNumberToken_nil])
    · exact Option.noConfusion h

/-- A suffix relation extracted from a `trimL` equation. -/
theorem trimL_eq_suffix {p : Char → Bool} {l x : List Char} (h : trimL p l = x) : x <:+ l :=
  h ▸ (List.dropWhile_suffix p : trimL p l <:+ l)

/-- A fully consumed value-parser step ends at a character that is not
JavaScript whitespace. -/
theorem parseValueA_last
    (pm : List Char → Option (List (String × Json) × List Char))
    (pe : List Char → Option (List Json × List Char))
    (hpm : ∀ cs f rest, pm cs = some (f, rest) → rest <:+ cs)
    (hpe : ∀ cs es rest, pe cs = some (es, rest) → rest <:+ cs) :
    ∀ cs v, parseValueA pm pe cs = some (v, []) →
      ∃ pre c, cs = pre ++ [c] ∧ isJsWs c = false := by
  intro cs v h
  rw [parseValueA.eq_def] at h
  split at h
  · -- string
    rename_i rest0
    split at h
    · rename_i body rest1 heq
      split at h
      · simp only [Option.some.injEq, Prod.mk.injEq] at h
        have hrest1 : rest1 = [] := h.2
        rw [hrest1] at heq
        have hsp := takeStringBody_eq rest0 body [] heq
        refine ⟨'"' :: body, '"', ?_, by decide⟩
        rw [hsp]
        rfl
      · exact Option.noConfusion h
    · exact Option.noConfusion h
  · rename_i rest0
    simp only [Option.some.injEq, Prod.mk.injEq] at h
    have : rest0 = [] := h.2
    rw [this]
    exact ⟨['t', 'r', 'u'], 'e', rfl, by decide⟩
  · rename_i rest0
    simp only [Option.some.injEq, Prod.mk.injEq] at h
    have : rest0 = [] := h.2
    rw [this]
    exact ⟨['f', 'a', 'l', 's'], 'e', rfl, by decide⟩
  · rename_i rest0
    simp only [Option.some.injEq, Prod.mk.injEq] at h
    have : rest0 = [] := h.2
    rw [this]
    exact ⟨['n', 'u', 'l'], 'l', rfl, by decide⟩
  · -- object
    rename_i rest0
    split at h
    · rename_i rest1 heq
      simp only [Option.some.injEq, Prod.mk.injEq] at h
      have hrest1 : rest1 = [] := h.2
      rw [hrest1] at heq
      have hsuf : ['}'] <:+ '{' :: rest0 :=
        (trimL_eq_suffix heq).trans (List.suffix_cons '{' rest0)
      obtain ⟨pre, hpre⟩ := hsuf
      exact ⟨pre, '}', hpre.symm, by decide⟩
    · rename_i r hne
      split at h
      · rename_i fields rest1 hm
        split at h
        · rename_i rest2 heq2
          simp only [Option.some.injEq, Prod.mk.injEq] at h
          have hrest2 : rest2 = [] := h.2
          rw [hrest2] at heq2
          have s2 : rest1 <:+ trimL isJsonWs rest0 := hpm _ _ _ hm
          have hsuf : ['}'] <:+ '{' :: rest0 :=
            ((trimL_eq_suffix heq2).trans (suffix_through_trimL s2)).trans
              (List.suffix_cons '{' rest0)
          obtain ⟨pre, hpre⟩ := hsuf
          exact ⟨pre, '}', hpre.symm, by decide⟩
        · exact Option.noConfusion h
      · exact Option.noConfusion h
  · -- array
    rename_i rest0
    split at h
    · rename_i rest1 heq
      simp only [Option.some.injEq, Prod.mk.injEq] at h
      have hrest1 : rest1 = [] := h.2
      rw [hrest1] at heq
      have hsuf : [']'] <:+ '[' :: rest0 :=
        (trimL_eq_suffix heq).trans (List.suffix_cons '[' rest0)
      obtain ⟨pre, hpre⟩ := hsuf
      exact ⟨pre, ']', hpre.symm, by decide⟩
    · rename_i r hne
      split at h
      · rename_i elems rest1 hm
        split at h
        · rename_i rest2 heq2
          simp only [Option.some.injEq, Prod.mk.injEq] at h
          have hrest2 : rest2 = [] := h.2
          rw [hrest2] at heq2
          have s2 : rest1 <:+ trimL isJsonWs rest0 := hpe _ _ _ hm
          have hsuf : [']'] <:+ '[' :: rest0 :=
            ((trimL_eq_suffix heq2).trans (suffix_through_trimL s2)).trans
              (List.suffix_cons '[' rest0)
          obtain ⟨pre, hpre⟩ := hsuf
          exact ⟨pre, ']', hpre.symm, by decide⟩
        · exact Option.noConfusion h
      · exact Option.noConfusion h
  · -- number
    split at h
    · rename_i q hq
      simp only [Option.some.injEq, Prod.mk.injEq] at h
      have hdrop : cs.dropWhile isNumChar = [] := h.2
      have hall : ∀ x ∈ cs, isNumChar x = true := List.dropWhile_eq_nil_iff.mp hdrop
      have hne : cs ≠ [] := by
        intro hcs
        rw [hcs] at hq
        exact absurd hq (by simp [parseNumberToken_nil])
      refine ⟨cs.dropLast, cs.getLast hne, (List.dropLast_append_getLast hne).symm, ?_⟩
      exact isNumChar_not_jsWs (hall _ (List.getLast_mem hne))
    · exact Option.noConfusion h

/-- A successfully parsed value starts with a non-whitespace character. -/
theorem parseValue_head {n : Nat} {cs : List Char} {v : Json} {rest : List Char}
    (h : parseValue n cs = some (v, rest)) :
    ∃ c cs2, cs = c :: cs2 ∧ isJsWs c = false := by
  cases n with
  | zero => exact Option.noConfusion h
  | succ n => exact parseValueA_head (parseMembers n) (parseElements n) cs v rest h

/-- A fully consumed parsed value ends with a non-whitespace character. -/
theorem parseValue_last {n : Nat} {cs : List Char} {v : Json}
    (h : parseValue n cs = some (v, [])) :
    ∃ pre c, cs = pre ++ [c] ∧ isJsWs c = false := by
  cases n with
  | zero => exact Option.noConfusion h
  | succ n =>
    exact parseValueA_last (parseMembers n) (parseElements n)
      (parse_suffix n).2.1 (parse_suffix n).2.2 cs v h

theorem splitAtFence_nil : splitAtFence [] = none := rfl

theorem splitAtFence_cons (c : Char) (rest : List Char) :
    splitAtFence (c :: rest) =
      if c = '`' ∧ rest.take 2 = ['`', '`'] then some ([], rest.drop 2)
      else
        match splitAtFence rest with
        | some (pre, post) => some (c :: pre, post)
        | none => none := rfl

/-- `splitAtFence` fails exactly when no triple-backtick fence occurs. -/
theorem splitAtFence_none_iff (cs : List Char) :
    splitAtFence cs = none ↔ ¬ (['`', '`', '`'] <:+: cs) := by
  induction cs with
  | nil =>
    rw [splitAtFence_nil]
    constructor
    · intro _ h
      have hle := h.length_le
      simp at hle
    · intro _
      rfl
  | cons c rest ih =>
    rw [splitAtFence_cons]
    by_cases hcond : c = '`' ∧ rest.take 2 = ['`', '`']
    · rw [if_pos hcond]
      have hinf : ['`', '`', '`'] <:+: c :: rest := by
        obtain ⟨hc, ht⟩ := hcond
        obtain ⟨r2, hr2⟩ : ∃ r2, rest = '`' :: '`' :: r2 := by
          cases rest with
          | nil => simp at ht
          | cons a as =>
            cases as with
            | nil => simp at ht
            | cons b bs =>
              simp only [List.take, List.cons.injEq] at ht
              exact ⟨bs, by rw [ht.1, ht.2.1]⟩
        rw [hc, hr2]
        exact ⟨[], r2, by simp⟩
      simp [hinf]
    · rw [if_neg hcond]
      have hpre : ¬ (['`', '`', '`'] <+: c :: rest) := by
        intro hp
        obtain ⟨t, ht⟩ := hp
        apply hcond
        have h1 : '`' = c := by injection ht
        have h2 : '`' :: '`' :: t = rest := by
          injection ht with ha hb
        exact ⟨h1.symm, by rw [← h2]; rfl⟩
      rw [List.infix_cons_iff]
      cases hsf : splitAtFence rest with
      | none =>
        simp only [hsf]
        exact iff_of_true trivial (not_or.mpr ⟨hpre, ih.mp hsf⟩)
      | some pr =>
        obtain ⟨pre2, post2⟩ := pr
        simp only [hsf]
        constructor
        · intro hcontra
          exact Option.noConfusion hcontra
        · intro hno
          exfalso
          apply hno
          right
          by_contra hni
          exact absurd (ih.mpr hni) (by rw [hsf]; simp)
  
/-- Removing a non-backtick last character cannot destroy a fence. -/
theorem fence_infix_concat {ys : List Char} {c : Char}
    (h : ['`', '`', '`'] <:+: ys ++ [c]) (hc : ¬ c = '`') : ['`', '`', '`'] <:+: ys := by
  obtain ⟨s, t, hst⟩ := h
  rcases t.eq_nil_or_concat' with rfl | ⟨t0, b, rfl⟩
  · exfalso
    apply hc
    have h2 : ys ++ [c] = (s ++ ['`', '`']) ++ ['`'] := by
      rw [← hst]; simp
    have h3 : some c = some '`' := by
      rw [← List.getLast?_concat ys, ← List.getLast?_concat (s ++ ['`', '`']), h2]
    exact Option.some.inj h3
  · have h2 : ys ++ [c] = (s ++ ['`', '`', '`'] ++ t0) ++ [b] := by
      rw [← hst]
      simp
    have h3 : ys = s ++ ['`', '`', '`'] ++ t0 := by
      have hdl := congrArg List.dropLast h2
      rwa [List.dropLast_concat, List.dropLast_concat] at hdl
    exact ⟨s, t0, h3.symm⟩

/-- Appending a fence after a fence-free block whose last character is
not a backtick makes `splitAtFence` split exactly at the appended
fence. -/
theorem splitAtFence_append_fence (xs rest : List Char)
    (hnone : splitAtFence xs = none) (hlast : xs.getLast? ≠ some '`') :
    splitAtFence (xs ++ '`' :: '`' :: '`' :: rest) = some (xs, rest) := by
  induction xs with
  | nil =>
    rw [List.nil_append, splitAtFence_cons]
    rw [if_pos ⟨rfl, rfl⟩]
    rfl
  | cons c cs ih =>
    rw [splitAtFence_cons] at hnone
    by_cases hcond : c = '`' ∧ cs.take 2 = ['`', '`']
    · rw [if_pos hcond] at hnone
      exact Option.noConfusion hnone
    · rw [if_neg hcond] at hnone
      have hcs : splitAtFence cs = none := by
        cases hsf : splitAtFence cs with
        | none => rfl
        | some pr =>
          obtain ⟨a, b⟩ := pr
          rw [hsf] at hnone
          exact Option.noConfusion hnone
      have hcond2 : ¬ (c = '`' ∧ (cs ++ '`' :: '`' :: '`' :: rest).take 2 = ['`', '`']) := by
        rintro ⟨hc, ht⟩
        cases cs with
        | nil =>
          exact hlast (by rw [hc]; rfl)
        | cons a as =>
          cases as with
          | nil =>
            simp only [List.cons_append, List.nil_append, List.take, List.cons.injEq] at ht
            exact hlast (by rw [ht.1]; rfl)
          | cons b bs =>
            apply hcond
            refine ⟨hc, ?_⟩
            simpa using ht
      have hlast2 : cs.getLast? ≠ some '`' := by
        cases cs with
        | nil => simp
        | cons a as =>
          rw [← List.getLast?_cons_cons]
          exact hlast
      rw [List.cons_append, splitAtFence_cons, if_neg hcond2, ih hcs hlast2]

theorem splitAtFence_fence_head (X : List Char) :
    splitAtFence ('`' :: '`' :: '`' :: X) = some ([], X) := by
  rw [splitAtFence_cons, if_pos ⟨rfl, rfl⟩]
  rfl

/-- Trimming a block whose core has non-`p` endpoint characters and a
trailing `p`-run yields exactly the core. -/
theorem trimBy_append_ws {p : Char → Bool} {t w : List Char}
    (hw : ∀ x ∈ w, p x = true)
    (hhead : ∃ c cs2, t = c :: cs2 ∧ p c = false)
    (hlast : ∃ pre d, t = pre ++ [d] ∧ p d = false) :
    trimBy p (t ++ w) = t := by
  obtain ⟨c, cs2, hc, hpc⟩ := hhead
  obtain ⟨pre, d, hd, hpd⟩ := hlast
  have h1 : trimL p (t ++ w) = t ++ w := by
    rw [hc, List.cons_append]
    exact trimL_eq_of_head hpc _
  have h2 : trimR p (t ++ w) = t := by
    rw [trimR, List.reverse_append]
    rw [dropWhile_append_of_all _ (fun x hx => hw x (List.mem_reverse.mp hx))]
    rw [hd, List.reverse_append]
    simp only [List.reverse_cons, List.reverse_nil, List.nil_append, List.singleton_append]
    rw [dropWhile_cons_of_neg hpd]
    rw [List.reverse_cons, List.reverse_reverse, ← hd]
  rw [trimBy, h1, h2]

/-- A list with non-`p` endpoint characters is untouched by `trimBy`. -/
theorem trimBy_eq_self_of_ends {p : Char → Bool} {t : List Char}
    (hhead : ∃ c cs2, t = c :: cs2 ∧ p c = false)
    (hlast : ∃ pre d, t = pre ++ [d] ∧ p d = false) :
    trimBy p t = t := by
  have := trimBy_append_ws (w := []) (fun x hx => absurd hx (List.not_mem_nil x)) hhead hlast
  simpa using this

theorem stripJsonTag_json (r : List Char) : stripJsonTag ('j' :: 's' :: 'o' :: 'n' :: r) = r := rfl

theorem stripJsonTag_nl (r : List Char) : stripJsonTag ('\n' :: r) = '\n' :: r := rfl

/-- Core of the fenced-wrap round trip: for a fence-free valid JSON
payload, wrapping in a fenced block (with or without the `json` tag)
extracts and parses to the same value as the bare payload. -/
theorem wrap_parse_eq (J : String) (v : Json)
    (hnf : containsFence J.data = false)
    (hj : jsonParse J = some v) :
    parseResponse ("```json\n" ++ J ++ "\n```") = some v
    ∧ parseResponse ("```\n" ++ J ++ "\n```") = some v
    ∧ parseResponse J = some v := by
  have hsplitnone : splitAtFence J.data = none := by
    cases hs : splitAtFence J.data with
    | none => rfl
    | some pr =>
      rw [containsFence, hs] at hnf
      simp at hnf
  have hpv : parseValue ((trimBy isJsonWs J.data).length + 1) (trimBy isJsonWs J.data)
      = some (v, []) := by
    rw [jsonParse] at hj
    simp only [jsonParseL] at hj
    split at hj
    · rename_i v2 hp
      rw [hp]
      simpa using hj
    · exact Option.noConfusion hj
  set t := trimBy isJsonWs J.data with hts
  have hhead := parseValue_head hpv
  have hlastE := parseValue_last hpv
  obtain ⟨pL, sL, hdecomp, hpre, hsuf⟩ := trimBy_decomposition isJsonWs J.data
  obtain ⟨c0, cs2, htc, hwc⟩ := hhead
  obtain ⟨pre0, d0, htd, hwd⟩ := hlastE
  have hnfix : ¬ (['`', '`', '`'] <:+: J.data) := (splitAtFence_none_iff _).mp hsplitnone
  have hnfix_ts : ¬ (['`', '`', '`'] <:+: t ++ sL) := by
    intro hin
    apply hnfix
    have hsfx : t ++ sL <:+ J.data := ⟨pL, by rw [hdecomp]; simp⟩
    exact hin.trans hsfx.isInfix
  have hxs_none : splitAtFence ((t ++ sL) ++ ['\n']) = none := by
    apply (splitAtFence_none_iff _).mpr
    intro hin
    exact hnfix_ts (fence_infix_concat hin (by decide))
  have hxs_last : ((t ++ sL) ++ ['\n']).getLast? ≠ some '`' := by
    rw [List.getLast?_concat]
    simp
  have hdrop : ∀ W : List Char, (J.data ++ W).dropWhile isJsWs = t ++ (sL ++ W) := by
    intro W
    rw [hdecomp]
    have e1 : ((pL ++ t ++ sL) ++ W) = pL ++ (t ++ (sL ++ W)) := by simp
    rw [e1, dropWhile_append_of_all _ (fun x hx => isJsonWs_isJsWs (hpre x hx))]
    rw [htc, List.cons_append, dropWhile_cons_of_neg hwc, ← List.cons_append, ← htc]
  have hwsuf : ∀ x ∈ sL ++ ['\n'], isJsWs x = true := by
    intro x hx
    rcases List.mem_append.mp hx with hx1 | hx2
    · exact isJsonWs_isJsWs (hsuf x hx1)
    · rw [List.mem_singleton.mp hx2]
      decide
  have htrimt : trimBy isJsWs ((t ++ sL) ++ ['\n']) = t := by
    have e3 : (t ++ sL) ++ ['\n'] = t ++ (sL ++ ['\n']) := by simp
    rw [e3]
    exact trimBy_append_ws hwsuf ⟨c0, cs2, htc, hwc⟩ ⟨pre0, d0, htd, hwd⟩
  have htrimjson : trimBy isJsonWs t = t := by
    refine trimBy_eq_self_of_ends ⟨c0, cs2, htc, ?_⟩ ⟨pre0, d0, htd, ?_⟩
    · cases hb : isJsonWs c0 with
      | false => rfl
      | true => exact absurd (isJsonWs_isJsWs hb) (by rw [hwc]; simp)
    · cases hb : isJsonWs d0 with
      | false => rfl
      | true => exact absurd (isJsonWs_isJsWs hb) (by rw [hwd]; simp)
  have hmkt : jsonParse (String.mk t) = some v := by
    rw [jsonParse]
    show jsonParseL t = some v
    simp only [jsonParseL, htrimjson]
    rw [hpv]
  refine ⟨?_, ?_, ?_⟩
  · -- tagged wrap
    have hdataT : ("```json\n" ++ J ++ "\n```").data
        = '`' :: '`' :: '`' :: 'j' :: 's' :: 'o' :: 'n' :: '\n' ::
          (J.data ++ ('\n' :: '`' :: '`' :: '`' :: [])) := by
      rw [String.data_append, String.data_append]
      show (['`', '`', '`', 'j', 's', 'o', 'n', '\n'] ++ J.data) ++ ['\n', '`', '`', '`'] = _
      simp
    have e4 : trimL isJsWs ('\n' :: (J.data ++ ('\n' :: '`' :: '`' :: '`' :: [])))
        = ((t ++ sL) ++ ['\n']) ++ '`' :: '`' :: '`' :: [] := by
      rw [trimL, List.dropWhile_cons, if_pos (by decide)]
      rw [show List.dropWhile isJsWs (J.data ++ ('\n' :: '`' :: '`' :: '`' :: []))
          = t ++ (sL ++ ('\n' :: '`' :: '`' :: '`' :: [])) from hdrop _]
      simp
    have hfiT : fenceInner (("```json\n" ++ J ++ "\n```").data)
        = some ((t ++ sL) ++ ['\n']) := by
      rw [hdataT]
      simp only [fenceInner, splitAtFence_fence_head, stripJsonTag_json]
      rw [e4, splitAtFence_append_fence _ _ hxs_none hxs_last]
    simp only [parseResponse, extractJson, hfiT, htrimt]
    exact hmkt
  · -- untagged wrap
    have hdataU : ("```\n" ++ J ++ "\n```").data
        = '`' :: '`' :: '`' :: '\n' ::
          (J.data ++ ('\n' :: '`' :: '`' :: '`' :: [])) := by
      rw [String.data_append, String.data_append]
      show (['`', '`', '`', '\n'] ++ J.data) ++ ['\n', '`', '`', '`'] = _
      simp
    have e4 : trimL isJsWs ('\n' :: (J.data ++ ('\n' :: '`' :: '`' :: '`' :: [])))
        = ((t ++ sL) ++ ['\n']) ++ '`' :: '`' :: '`' :: [] := by
      rw [trimL, List.dropWhile_cons, if_pos (by decide)]
      rw [show List.dropWhile isJsWs (J.data ++ ('\n' :: '`' :: '`' :: '`' :: []))
          = t ++ (sL ++ ('\n' :: '`' :: '`' :: '`' :: [])) from hdrop _]
      simp
    have hfiU : fenceInner (("```\n" ++ J ++ "\n```").data)
        = some ((t ++ sL) ++ ['\n']) := by
      rw [hdataU]
      simp only [fenceInner, splitAtFence_fence_head, stripJsonTag_nl]
      rw [e4, splitAtFence_append_fence _ _ hxs_none hxs_last]
    simp only [parseResponse, extractJson, hfiU, htrimt]
    exact hmkt
  · -- bare
    have hextB : extractJson J = J := by
      simp only [extractJson, fenceInner, hsplitnone]
    simp only [parseResponse, hextB]
    exact hj

/-! ### Claim C6: the fenced-wrap round trip -/

/-- Claim C6 counterexample: the JSON payload `{"a":"```"}` parses (so it
is a JSON payload), yet the verifier result on the fenced-wrapped
response differs from the result on the bare response — the lazy capture
group stops at the backticks inside the string literal, truncating the
payload to unparseable text. -/
theorem fenced_roundtrip_counterexample :
    (jsonParse "\x7b\"a\":\"```\"\x7d").isSome = true
    ∧ verifyEdit (.success ("```json\n" ++ "\x7b\"a\":\"```\"\x7d" ++ "\n```"))
        ≠ verifyEdit (.success "\x7b\"a\":\"```\"\x7d")
    ∧ verifyEdit (.success ("```json\n" ++ "\x7b\"a\":\"```\"\x7d" ++ "\n```"))
        = .blocked "Invalid verifier response"
    ∧ verifyEdit (.success "\x7b\"a\":\"```\"\x7d") = .blocked "Verification blocked" := by
  refine ⟨rfl, ?_, rfl, rfl⟩
  decide

/-- Claim C6 (amended): for every JSON payload that parses and does not
itself contain a triple-backtick fence, the Policy Verifier result on
the response wrapped in a fenced code block (with or without the `json`
language tag) equals its result on the bare response. -/
theorem fenced_roundtrip_amended (J : String) (v : Json)
    (hnf : containsFence J.data = false)
    (hj : jsonParse J = some v) :
    verifyEdit (.success ("```json\n" ++ J ++ "\n```")) = verifyEdit (.success J)
    ∧ verifyEdit (.success ("```\n" ++ J ++ "\n```")) = verifyEdit (.success J) := by
  obtain ⟨hT, hU, hB⟩ := wrap_parse_eq J v hnf hj
  constructor
  · simp only [verifyEdit, hT, hB]
  · simp only [verifyEdit, hU, hB]

theorem fenced_roundtrip_amended_witness :
    containsFence ("\x7b\"decision\":\"allow\"\x7d").data = false
    ∧ jsonParse "\x7b\"decision\":\"allow\"\x7d" = some (.obj [("decision", .str "allow")])
    ∧ verifyEdit (.success ("```json\n" ++ "\x7b\"decision\":\"allow\"\x7d" ++ "\n```"))
        = verifyEdit (.success "\x7b\"decision\":\"allow\"\x7d") :=
  ⟨rfl, rfl,
    (fenced_roundtrip_amended "\x7b\"decision\":\"allow\"\x7d"
      (.obj [("decision", .str "allow")]) rfl rfl).1⟩
